import Mathlib

/-
Shallow embedding of the MASM-style x86 operand unparser in
src/libpharos/masm.cpp (namespace pharos), together with proofs about its
addressing-pattern matcher, numeric formatting, label substitution and byte
dump rendering.

Modelling conventions:
- machine integers are Nat with explicit masks / `% 2^w` where the C++ code
  relies on fixed-width arithmetic;
- the expression AST is a closed inductive mirroring the SgAsm variants the
  unparser dispatches on, plus one `unknown` constructor standing for every
  variant that falls into the default case of the switch;
- a null expression argument is modelled as `Option Expr` at the entry point;
  subtrees of well-formed operand expressions are total;
- the external register naming function unparseX86Register is an explicit
  parameter `regName`;
- fatal failures (the ROSE_ASSERT in the default case, and the null
  dereference that `emit` performs when the matcher left a field unset) are
  modelled in the Except monad.
-/

/-- Lower-case hex digit character for a value below 16 (ostream / printf x). -/
def hexDigitChar (n : Nat) : Char :=
  if n < 10 then Char.ofNat (48 + n) else Char.ofNat (87 + n)

/-- Upper-case hex digit character for a value below 16 (printf X). -/
def hexDigitCharUpper (n : Nat) : Char :=
  if n < 10 then Char.ofNat (48 + n) else Char.ofNat (55 + n)

/-- Hex digits of `n`, most significant first, by fuel recursion; empty for 0. -/
def toHexAux : Nat → Nat → List Char
  | 0, _ => []
  | fuel + 1, n =>
    if n = 0 then [] else toHexAux fuel (n / 16) ++ [hexDigitChar (n % 16)]

/-- Natural lower-case hex rendering of a number, as printed by
`std::ostream` with `std::hex` and no width: no sign, no padding, `0` for 0. -/
def toHexList (n : Nat) : List Char :=
  if n = 0 then ['0'] else toHexAux n n

/-- The text `printf("%#PRIx64", n)` produces: `0` for 0 (the `#` flag adds the
`0x` tag only to nonzero results), otherwise `0x` followed by lower-case hex. -/
def prix64 (n : Nat) : String :=
  if n = 0 then "0" else "0x" ++ String.mk (toHexList n)

/-- Model of `~v + 1` on uint64_t: two_s-complement negation of `v` mod 2^64. -/
def twoComp (v : Nat) : Nat := (2 ^ 64 - v % 2 ^ 64) % 2 ^ 64

/-- The text `printf("%02X", b)` produces for a byte value `b < 256`:
exactly two upper-case hex digits. -/
def byteHexUpper (b : Nat) : String :=
  String.mk [hexDigitCharUpper (b / 16), hexDigitCharUpper (b % 16)]

/-- Recognizer for lower-case hexadecimal digit characters. -/
def isLowerHexDigit (c : Char) : Bool :=
  (('0' ≤ c) && (c ≤ '9')) || (('a' ≤ c) && (c ≤ 'f'))

/-- Recognizer for upper-case hexadecimal digit characters. -/
def isUpperHexDigit (c : Char) : Bool :=
  (('0' ≤ c) && (c ≤ '9')) || (('A' ≤ c) && (c ≤ 'F'))

/-- The operand expression variants that masm_unparseX86Expression dispatches
on.  Register descriptors are abstracted as Nat keys into the external
register naming function.  `intVal bits v` carries get_significantBits and the
raw unsigned constant.  A memory reference with a null segment pointer is
`memRef`, with a non-null one `memRefSeg`.  `unknown s` stands for every SgAsm
variant that reaches the default case of the switch (`s` is class_name). -/
inductive Expr where
  | add (lhs rhs : Expr)
  | sub (lhs rhs : Expr)
  | mul (lhs rhs : Expr)
  | memRef (addr : Expr)
  | memRefSeg (addr seg : Expr)
  | directReg (desc : Nat)
  | indirectReg (desc : Nat) (index : Nat)
  | intVal (bits : Nat) (val : Nat)
  | unknown (name : String)
deriving DecidableEq, Repr

/-- Fatal conditions of the unparser: the ROSE_ASSERT(false) in the default
case, and the null-field dereference X86IndirectAddress::emit performs when
the constructor declared completeness without filling every role. -/
inductive Err where
  | unsupportedExpressionKind (name : String)
  | nullPointerDereference
deriving DecidableEq, Repr

/-- The pattern-match state of X86IndirectAddress: candidate base register,
displacement literal (bits, value), index register and stride literal
(bits, value), and the completion flag.  Defaults mirror the C++ member
initializers. -/
structure X86IndirectAddress where
  frame_pointer_reg : Option Nat := none
  offset_integer : Option (Nat × Nat) := none
  index_reg : Option Nat := none
  stride_integer : Option (Nat × Nat) := none
  complete_ : Bool := false
deriving DecidableEq, Repr

/-- One iteration of the classification loop in the X86IndirectAddress
constructor.  `.error st` models the early `return` (state left as is);
note that an operand matching none of the three shapes is silently skipped,
exactly as in the source, which has no final else clause. -/
def classifyOp (st : X86IndirectAddress) (op : Expr) :
    Except X86IndirectAddress X86IndirectAddress :=
  match op with
  | .directReg d =>
    match st.frame_pointer_reg with
    | some _ => .error st
    | none => .ok { st with frame_pointer_reg := some d }
  | .intVal b v =>
    match st.offset_integer with
    | some _ => .error st
    | none => .ok { st with offset_integer := some (b, v) }
  | .mul l r =>
    match (match l with
           | .directReg d => some (d, r)
           | _ =>
             match r with
             | .directReg d => some (d, l)
             | _ => none) with
    | none => .error st
    | some (d, other) =>
      match other with
      | .intVal b v =>
        match st.index_reg with
        | some _ => .error st
        | none => .ok { st with index_reg := some d, stride_integer := some (b, v) }
      | _ => .error st
  | _ => .ok st

/-- The classification loop over the three recovered operands, followed by
`complete_ = true` when no early return fired. -/
def classifyOperands (o1 o2 o3 : Expr) : X86IndirectAddress :=
  match classifyOp {} o1 with
  | .error st => st
  | .ok st1 =>
    match classifyOp st1 o2 with
    | .error st => st
    | .ok st2 =>
      match classifyOp st2 o3 with
      | .error st => st
      | .ok st3 => { st3 with complete_ := true }

/-- Operand recovery from the address tree of the memory reference: the root
must be an Add whose left or right child is again an Add; the two-level
nesting is flattened into three operands, accepting either grouping. -/
def mkFromAddr (addr : Expr) : X86IndirectAddress :=
  match addr with
  | .add l r =>
    match l with
    | .add l2 r2 => classifyOperands l2 r2 r
    | _ =>
      match r with
      | .add l2 r2 => classifyOperands l l2 r2
      | _ => {}
  | _ => {}

/-- The X86IndirectAddress constructor: requires a memory reference whose
address is a two-level Add tree, then classifies the three operands. -/
def mkX86IndirectAddress : Expr → X86IndirectAddress
  | .memRef addr => mkFromAddr addr
  | .memRefSeg addr _ => mkFromAddr addr
  | _ => {}

/-- X86IndirectAddress::emit.  The stream is in std::hex mode throughout, so
the stride and the displacement magnitude are printed as lower-case hex.  The
sign is taken from the top bit of the displacement bit vector at its declared
width; the printed magnitude is the int64 `get_signedValue`, negated when the
sign bit is set, converted to uint64 by the stream insertion (modelled as
`% 2^64` on the integer).  `none` models the null dereference that happens
when a field was never assigned. -/
def X86IndirectAddress.emit (regName : Nat → String) (ia : X86IndirectAddress) :
    Option String :=
  match ia.frame_pointer_reg, ia.index_reg, ia.stride_integer, ia.offset_integer with
  | some fp, some ixr, some st, some off =>
    let sval := st.2
    let scalePart := if sval ≠ 1 then "*" ++ String.mk (toHexList sval) else ""
    let ob := off.1
    let ov := off.2
    let neg := Nat.testBit ov (ob - 1)
    let sgn : Int := if neg then (ov : Int) - 2 ^ ob else (ov : Int)
    let mag : Nat := ((if neg then -sgn else sgn) % ((2 : Int) ^ 64)).toNat
    some ("[" ++ regName fp ++ "+" ++ regName ixr ++ scalePart ++
          (if neg then "-" else "+") ++ "0x" ++ String.mk (toHexList mag) ++ "]")
  | _, _, _, _ => none

/-- masm_x86ValToLabel: empty string when the value is 0 or the map pointer is
null or the key is absent, otherwise the mapped name. -/
def masm_x86ValToLabel (val : Nat) (labels : Option (List (Nat × String))) : String :=
  if val = 0 then ""
  else
    match labels with
    | none => ""
    | some m =>
      match m.lookup val with
      | none => ""
      | some s => s

/-- The recursive body of masm_unparseX86Expression for a non-null expression.
`regName` is the external unparseX86Register; `leaMode` suppresses the size
and segment prefixing logic; `labels` is the label map pointer. -/
def masm_unparseX86Expr (regName : Nat → String) :
    Expr → Bool → Option (List (Nat × String)) → Except Err String
  | .add lhs rhs, _, labels => do
    let lstr ← masm_unparseX86Expr regName lhs false labels
    let rstr ← masm_unparseX86Expr regName rhs false labels
    if rstr.startsWith "-" then .ok (lstr ++ rstr)
    else .ok (lstr ++ "+" ++ rstr)
  | .sub lhs rhs, _, labels => do
    let lstr ← masm_unparseX86Expr regName lhs false labels
    let rstr ← masm_unparseX86Expr regName rhs false labels
    .ok (lstr ++ "-" ++ rstr)
  | .mul lhs rhs, _, labels => do
    let lstr ← masm_unparseX86Expr regName lhs false labels
    let rstr ← masm_unparseX86Expr regName rhs false labels
    .ok (lstr ++ "*" ++ rstr)
  | .memRef addr, _, labels =>
    let ia := mkX86IndirectAddress (.memRef addr)
    if ia.complete_ then
      match X86IndirectAddress.emit regName ia with
      | some s => .ok s
      | none => .error .nullPointerDereference
    else do
      -- the `ambiguous` size branch is hard-coded false in the source and the
      -- segment pointer is null here, so no tag is prepended (leaMode or not)
      let astr ← masm_unparseX86Expr regName addr false labels
      .ok ("[" ++ astr ++ "]")
  | .memRefSeg addr seg, leaMode, labels =>
    let ia := mkX86IndirectAddress (.memRefSeg addr seg)
    if ia.complete_ then
      match X86IndirectAddress.emit regName ia with
      | some s => .ok s
      | none => .error .nullPointerDereference
    else do
      let pfx ←
        if leaMode then .ok ""
        else do
          -- the segment subexpression is unparsed with a null label map; only
          -- the common "fs" override is surfaced
          let segreg ← masm_unparseX86Expr regName seg false none
          if segreg = "fs" then .ok (segreg ++ ":") else .ok ""
      let astr ← masm_unparseX86Expr regName addr false labels
      .ok (pfx ++ "[" ++ astr ++ "]")
  | .directReg d, _, _ => .ok (regName d)
  | .indirectReg _ idx, _, _ => .ok ("(" ++ toString idx ++ ")")
  | .intVal bits v, _, labels =>
    if bits = 8 then
      if (v &&& 0x80) ≠ 0 ∧ (v &&& 0x7f) ≠ 0 then
        .ok ("-" ++ prix64 (twoComp v &&& 0xff))
      else
        .ok (prix64 v)
    else if bits = 16 then
      if (v &&& 0x8000) ≠ 0 ∧ (v &&& 0x7fff) ≠ 0 then
        .ok ("-" ++ prix64 (twoComp v &&& 0xffff))
      else
        .ok (prix64 v)
    else if bits = 32 then
      let label := masm_x86ValToLabel v labels
      if label ≠ "" then .ok label
      else if (v &&& 0x80000000) ≠ 0 ∧ (v &&& 0x7fffffff) ≠ 0 then
        .ok ("-" ++ prix64 (twoComp v &&& 0xffffffff))
      else
        .ok (prix64 v)
    else if bits = 64 then
      let label := masm_x86ValToLabel v labels
      if label ≠ "" then .ok label
      else if (v &&& (2 ^ 63)) ≠ 0 ∧ (v &&& (2 ^ 63 - 1)) ≠ 0 then
        .ok ("-" ++ prix64 (twoComp v))
      else
        .ok (prix64 v)
    else
      -- none of the width branches fired: `result` keeps its initial value ""
      .ok ""
  | .unknown name, _, _ => .error (.unsupportedExpressionKind name)

/-- masm_unparseX86Expression: the null check at the top of the function, then
the switch on the expression variant. -/
def masm_unparseX86Expression (regName : Nat → String) (expr : Option Expr)
    (leaMode : Bool) (labels : Option (List (Nat × String))) : Except Err String :=
  match expr with
  | none => .ok "BOGUS:NULL"
  | some e => masm_unparseX86Expr regName e leaMode labels

/-- debug_opcode_bytes: hex-encode the raw bytes truncated to `max_bytes`,
then append "+" when the full sequence was longer than the maximum. -/
def debug_opcode_bytes (data : List (Fin 256)) (max_bytes : Nat) : String :=
  let hex := (data.take max_bytes).foldl (fun acc b => acc ++ byteHexUpper b.val) ""
  if data.length > max_bytes then hex ++ "+" else hex

/-- The character list the byte-dump loop accumulates: two upper-case hex
digits per byte, in order, with no separators. -/
def hexBytesChars : List (Fin 256) → List Char
  | [] => []
  | b :: rest =>
    hexDigitCharUpper (b.val / 16) :: hexDigitCharUpper (b.val % 16) :: hexBytesChars rest

/- ===== Spec-side definitions (written from the words of the spec, for the
refinement claims; to be compared with the source-translated functions) ===== -/

/-- Modelled from the spec, section 4.1: the canonical matched-address text.
Open bracket, base name, plus, index name, then a star and the scale only
when the scale differs from 1, then a sign character chosen by the sign bit
of the displacement at its own declared width, then 0x and the absolute value
of the signed displacement in hexadecimal, then a closing bracket. -/
def specAddressText (regName : Nat → String) (fp ixr sval ob ov : Nat) : String :=
  "[" ++ regName fp ++ "+" ++ regName ixr ++
  (if sval = 1 then "" else "*" ++ String.mk (toHexList sval)) ++
  (if 2 ^ (ob - 1) ≤ ov then "-" else "+") ++ "0x" ++
  String.mk (toHexList (((ov : Int) - if 2 ^ (ob - 1) ≤ ov then 2 ^ ob else 0).natAbs))
  ++ "]"

/-- Modelled from the spec, section 4.3: a literal of width `w` prints as a
negative magnitude exactly when the sign bit is set and the value with the
sign bit cleared is non-zero; the magnitude is the two_s-complement value
2^w - v; otherwise the unsigned form is printed. -/
def specIntNumeral (w v : Nat) : String :=
  if 2 ^ (w - 1) ≤ v ∧ v % 2 ^ (w - 1) ≠ 0 then "-" ++ prix64 (2 ^ w - v)
  else prix64 v

/- ===== Helper lemmas ===== -/

/-- The top bit of a value below 2^w is set exactly when the value is at
least 2^(w-1). -/
theorem testBit_msb (w v : Nat) (hw : 0 < w) (hv : v < 2 ^ w) :
    Nat.testBit v (w - 1) = decide (2 ^ (w - 1) ≤ v) := by
  rw [Nat.testBit_to_div_mod]
  have hp : 0 < 2 ^ (w - 1) := Nat.pos_pow_of_pos _ (by norm_num)
  have h2 : 2 ^ w = 2 * 2 ^ (w - 1) := by
    conv_lhs => rw [← Nat.sub_add_cancel hw]
    rw [Nat.pow_succ]
    ring
  have hq : v / 2 ^ (w - 1) < 2 := Nat.div_lt_of_lt_mul (by omega)
  rw [Nat.mod_eq_of_lt hq]
  rcases Nat.lt_or_ge v (2 ^ (w - 1)) with h | h
  · rw [Nat.div_eq_of_lt h]
    simp [Nat.not_le.mpr h]
  · have h1 : 1 ≤ v / 2 ^ (w - 1) := (Nat.le_div_iff_mul_le hp).mpr (by omega)
    have he : v / 2 ^ (w - 1) = 1 := by omega
    simp [he, h]

/-- Conjunction of the two mask tests of the source with the sign-rule
condition of the spec, for a value below 2^w. -/
theorem mask_cond_iff (w v : Nat) (hw : 0 < w) (hv : v < 2 ^ w) :
    ((v &&& 2 ^ (w - 1)) ≠ 0 ∧ (v &&& (2 ^ (w - 1) - 1)) ≠ 0) ↔
      (2 ^ (w - 1) ≤ v ∧ v % 2 ^ (w - 1) ≠ 0) := by
  rw [Nat.and_two_pow, testBit_msb w v hw hv, Nat.and_pow_two_sub_one_eq_mod]
  have hp : 0 < 2 ^ (w - 1) := Nat.pos_pow_of_pos _ (by norm_num)
  by_cases h : 2 ^ (w - 1) ≤ v
  · simp [h, hp.ne']
  · simp [h]

/-- The two_s-complement magnitude computed by the source
(`(~v+1) & (2^w - 1)` over uint64) equals 2^w - v for 0 < v < 2^w. -/
theorem twoComp_mask (w v : Nat) (h64 : w ≤ 64) (hv0 : 0 < v) (hv : v < 2 ^ w) :
    twoComp v &&& (2 ^ w - 1) = 2 ^ w - v := by
  rw [Nat.and_pow_two_sub_one_eq_mod]
  unfold twoComp
  have hle : 2 ^ w ≤ 2 ^ 64 := Nat.pow_le_pow_right (by norm_num) h64
  have hvlt : v < 2 ^ 64 := lt_of_lt_of_le hv hle
  rw [Nat.mod_eq_of_lt hvlt]
  have h1 : 2 ^ 64 - v < 2 ^ 64 := by omega
  rw [Nat.mod_eq_of_lt h1]
  have h2 : 2 ^ 64 - v = 2 ^ w * (2 ^ (64 - w) - 1) + (2 ^ w - v) := by
    have h3 : 2 ^ w * 2 ^ (64 - w) = 2 ^ 64 := by
      rw [← Nat.pow_add]
      congr 1
      omega
    have h4 : 0 < 2 ^ (64 - w) := Nat.two_pow_pos _
    have h5 : 0 < 2 ^ w := Nat.two_pow_pos _
    rw [Nat.mul_sub, Nat.mul_one, h3]
    omega
  rw [h2, Nat.mul_add_mod]
  exact Nat.mod_eq_of_lt (by omega)

/-- Every digit character produced for a value below 16 is a lower-case
hexadecimal digit. -/
theorem hexDigitChar_isLower : ∀ n, n < 16 → isLowerHexDigit (hexDigitChar n) = true := by
  decide

/-- A nonzero digit value below 16 yields a character other than the zero
digit. -/
theorem hexDigitChar_ne_zero : ∀ n, n < 16 → n ≠ 0 → hexDigitChar n ≠ '0' := by
  decide

/-- Every digit character produced for a value below 16 is an upper-case
hexadecimal digit. -/
theorem hexDigitCharUpper_isUpper : ∀ n, n < 16 → isUpperHexDigit (hexDigitCharUpper n) = true := by
  decide

theorem toHexAux_zero (fuel : Nat) : toHexAux fuel 0 = [] := by
  cases fuel <;> rfl

theorem toHexAux_all_lower (fuel : Nat) : ∀ n, (toHexAux fuel n).all isLowerHexDigit = true := by
  induction fuel with
  | zero => intro n; rfl
  | succ f ih =>
    intro n
    unfold toHexAux
    by_cases h : n = 0
    · rw [if_pos h]; rfl
    · rw [if_neg h]
      simp only [List.all_append, Bool.and_eq_true]
      exact ⟨ih (n / 16), by simp [hexDigitChar_isLower _ (Nat.mod_lt _ (by norm_num))]⟩

theorem toHexAux_cons (fuel : Nat) : ∀ n, 0 < n → n ≤ fuel →
    ∃ c rest, toHexAux fuel n = c :: rest ∧ c ≠ '0' := by
  induction fuel with
  | zero => intro n h1 h2; omega
  | succ f ih =>
    intro n h1 h2
    unfold toHexAux
    rw [if_neg (by omega)]
    by_cases h16 : n < 16
    · rw [Nat.div_eq_of_lt h16, toHexAux_zero]
      refine ⟨hexDigitChar (n % 16), [], rfl, ?_⟩
      rw [Nat.mod_eq_of_lt h16]
      exact hexDigitChar_ne_zero n h16 (by omega)
    · have hq1 : 0 < n / 16 := Nat.div_pos (by omega) (by norm_num)
      have hq2 : n / 16 ≤ f := by
        have := Nat.div_lt_self h1 (by norm_num : 1 < 16)
        omega
      obtain ⟨c, rest, he, hc⟩ := ih (n / 16) hq1 hq2
      rw [he]
      exact ⟨c, rest ++ [hexDigitChar (n % 16)], rfl, hc⟩

theorem toHexList_all_lower (n : Nat) : (toHexList n).all isLowerHexDigit = true := by
  unfold toHexList
  by_cases h : n = 0
  · rw [if_pos h]; rfl
  · rw [if_neg h]; exact toHexAux_all_lower n n

theorem toHexList_ne_nil (n : Nat) : toHexList n ≠ [] := by
  unfold toHexList
  by_cases h : n = 0
  · rw [if_pos h]; simp
  · rw [if_neg h]
    obtain ⟨c, rest, he, _⟩ := toHexAux_cons n n (by omega) (Nat.le_refl n)
    rw [he]; simp

theorem toHexList_head_zero (n : Nat) (h : (toHexList n).head? = some '0') :
    toHexList n = ['0'] := by
  by_cases hn : n = 0
  · rw [hn]; rfl
  · exfalso
    unfold toHexList at h
    rw [if_neg hn] at h
    obtain ⟨c, rest, he, hc⟩ := toHexAux_cons n n (by omega) (Nat.le_refl n)
    rw [he] at h
    simp only [List.head?_cons, Option.some.injEq] at h
    exact hc h

theorem prix64_pos (n : Nat) (h : n ≠ 0) :
    prix64 n = String.mk ('0' :: 'x' :: toHexList n) := by
  unfold prix64
  rw [if_neg h]
  rfl

theorem dash_prix64_pos (n : Nat) (h : n ≠ 0) :
    "-" ++ prix64 n = String.mk ('-' :: '0' :: 'x' :: toHexList n) := by
  rw [prix64_pos n h]
  rfl

/-- The source branch for widths 8 and 16 and the unlabelled 32/64 branch,
equated with the sign rule as the spec words it, one width at a time. -/
theorem intVal8_eq (rn : Nat → String) (lea : Bool)
    (labels : Option (List (Nat × String))) (v : Nat) (hv : v < 2 ^ 8) :
    masm_unparseX86Expr rn (.intVal 8 v) lea labels = .ok (specIntNumeral 8 v) := by
  have hm := mask_cond_iff 8 v (by norm_num) hv
  norm_num at hm
  simp only [masm_unparseX86Expr, specIntNumeral]
  norm_num
  by_cases h : 128 ≤ v ∧ ¬ v % 128 = 0
  · rw [if_pos (hm.mpr h), if_pos h]
    have h2 : twoComp v &&& 255 = 256 - v := by
      have h3 := twoComp_mask 8 v (by norm_num) (by omega) hv
      norm_num at h3
      exact h3
    rw [h2]
  · rw [if_neg (fun hc => h (hm.mp hc)), if_neg h]

theorem intVal16_eq (rn : Nat → String) (lea : Bool)
    (labels : Option (List (Nat × String))) (v : Nat) (hv : v < 2 ^ 16) :
    masm_unparseX86Expr rn (.intVal 16 v) lea labels = .ok (specIntNumeral 16 v) := by
  have hm := mask_cond_iff 16 v (by norm_num) hv
  norm_num at hm
  simp only [masm_unparseX86Expr, specIntNumeral]
  norm_num
  by_cases h : 32768 ≤ v ∧ ¬ v % 32768 = 0
  · rw [if_pos (hm.mpr h), if_pos h]
    have h2 : twoComp v &&& 65535 = 65536 - v := by
      have h3 := twoComp_mask 16 v (by norm_num) (by omega) hv
      norm_num at h3
      exact h3
    rw [h2]
  · rw [if_neg (fun hc => h (hm.mp hc)), if_neg h]

theorem intVal32_eq (rn : Nat → String) (lea : Bool)
    (labels : Option (List (Nat × String))) (v : Nat) (hv : v < 2 ^ 32)
    (hlab : masm_x86ValToLabel v labels = "") :
    masm_unparseX86Expr rn (.intVal 32 v) lea labels = .ok (specIntNumeral 32 v) := by
  have hm := mask_cond_iff 32 v (by norm_num) hv
  norm_num at hm
  simp only [masm_unparseX86Expr, specIntNumeral, hlab]
  norm_num
  by_cases h : 2147483648 ≤ v ∧ ¬ v % 2147483648 = 0
  · rw [if_pos (hm.mpr h), if_pos h]
    have h2 : twoComp v &&& 4294967295 = 4294967296 - v := by
      have h3 := twoComp_mask 32 v (by norm_num) (by omega) hv
      norm_num at h3
      exact h3
    rw [h2]
  · rw [if_neg (fun hc => h (hm.mp hc)), if_neg h]

theorem intVal64_eq (rn : Nat → String) (lea : Bool)
    (labels : Option (List (Nat × String))) (v : Nat) (hv : v < 2 ^ 64)
    (hlab : masm_x86ValToLabel v labels = "") :
    masm_unparseX86Expr rn (.intVal 64 v) lea labels = .ok (specIntNumeral 64 v) := by
  have hm := mask_cond_iff 64 v (by norm_num) hv
  norm_num at hm
  simp only [masm_unparseX86Expr, specIntNumeral, hlab]
  norm_num
  by_cases h : 9223372036854775808 ≤ v ∧ ¬ v % 9223372036854775808 = 0
  · rw [if_pos (hm.mpr h), if_pos h]
    have h2 : twoComp v = 18446744073709551616 - v := by
      unfold twoComp
      have h4 : v % 2 ^ 64 = v := Nat.mod_eq_of_lt hv
      rw [h4]
      norm_num at hv ⊢
      omega
    rw [h2]
  · rw [if_neg (fun hc => h (hm.mp hc)), if_neg h]

/-- The printed magnitude of a negative displacement: the int64 negation
followed by the uint64 stream conversion equals the absolute value of the
signed interpretation. -/
theorem emit_mag_neg (w ov : Nat) (h64 : w ≤ 64) (hv : ov < 2 ^ w)
    (hneg : 2 ^ (w - 1) ≤ ov) :
    ((-((ov : Int) - 2 ^ w)) % (2 : Int) ^ 64).toNat = ((ov : Int) - 2 ^ w).natAbs := by
  have hle : ov ≤ 2 ^ w := Nat.le_of_lt hv
  have hp : 0 < 2 ^ (w - 1) := Nat.two_pow_pos _
  have hpw : ((2 ^ w : Nat) : Int) = (2 : Int) ^ w := by push_cast; ring
  have hk : -((ov : Int) - 2 ^ w) = ((2 ^ w - ov : Nat) : Int) := by
    rw [Nat.cast_sub hle, hpw]
    ring
  have hklt : 2 ^ w - ov < 2 ^ 64 := by
    have h2 : (2 : Nat) ^ w ≤ 2 ^ 64 := Nat.pow_le_pow_right (by norm_num) h64
    omega
  rw [hk, Int.emod_eq_of_lt (Int.natCast_nonneg _) ?hlt]
  case hlt =>
    have hpw64 : ((2 ^ 64 : Nat) : Int) = (2 : Int) ^ 64 := by push_cast
    rw [← hpw64]
    exact_mod_cast hklt
  have hneg2 : (ov : Int) - 2 ^ w = -(((2 ^ w - ov : Nat) : Int)) := by
    rw [Nat.cast_sub hle, hpw]; ring
  rw [hneg2, Int.natAbs_neg]
  simp

/-- The printed magnitude of a non-negative displacement is the value
itself. -/
theorem emit_mag_pos (w ov : Nat) (h64 : w ≤ 64) (hv : ov < 2 ^ w) :
    (((ov : Int)) % (2 : Int) ^ 64).toNat = ((ov : Int)).natAbs := by
  have h1 : ov < 2 ^ 64 := lt_of_lt_of_le hv (Nat.pow_le_pow_right (by norm_num) h64)
  have hpw64 : ((2 ^ 64 : Nat) : Int) = (2 : Int) ^ 64 := by push_cast
  rw [Int.emod_eq_of_lt (Int.natCast_nonneg _) (by rw [← hpw64]; exact_mod_cast h1)]
  simp

/-- Commuting the two phrasings of the scale-one suppression test. -/
theorem scale_ite_comm (sv : Nat) :
    (if sv ≠ 1 then "*" ++ String.mk (toHexList sv) else "") =
      (if sv = 1 then "" else "*" ++ String.mk (toHexList sv)) := by
  by_cases h : sv = 1 <;> simp [h]

/-- C1: the spec states that the matcher declares a match only when the Add
tree has exactly one bare register operand, one multiply-of-register-by-
literal operand and one bare literal operand, with no operand left
unclassified, and otherwise reports no match.  The code instead sets the
completion flag even when an operand of another shape (here a Subtract) was
silently skipped, leaving the index role empty, and the subsequent emit
dereferences the missing field instead of falling back to bracketed
unparsing. -/
theorem match_declared_with_unclassified_operand :
    (mkX86IndirectAddress (.memRef (.add (.add (.directReg 0)
        (.sub (.directReg 1) (.directReg 2))) (.intVal 32 8)))).complete_ = true
    ∧ (mkX86IndirectAddress (.memRef (.add (.add (.directReg 0)
        (.sub (.directReg 1) (.directReg 2))) (.intVal 32 8)))).index_reg = none
    ∧ masm_unparseX86Expression (fun n => "r" ++ toString n)
        (some (.memRef (.add (.add (.directReg 0)
          (.sub (.directReg 1) (.directReg 2))) (.intVal 32 8)))) false none
        = .error .nullPointerDereference :=
  ⟨rfl, rfl, rfl⟩

/-- C2: for every base register, index register, nonzero scale and
displacement, the four two-level Add groupings of base, index times scale
and displacement are all accepted by the matcher and render to the same
canonical text. -/
theorem addressing_grouping_invariance (rn : Nat → String) (lea : Bool)
    (labels : Option (List (Nat × String))) (r x sb sv db dv : Nat)
    (hS : sv ≠ 0) :
    (mkX86IndirectAddress (.memRef (.add (.add (.directReg r)
        (.mul (.directReg x) (.intVal sb sv))) (.intVal db dv)))).complete_ = true
    ∧ (mkX86IndirectAddress (.memRef (.add (.add (.directReg r) (.intVal db dv))
        (.mul (.directReg x) (.intVal sb sv))))).complete_ = true
    ∧ (mkX86IndirectAddress (.memRef (.add (.directReg r)
        (.add (.mul (.directReg x) (.intVal sb sv)) (.intVal db dv))))).complete_ = true
    ∧ (mkX86IndirectAddress (.memRef (.add (.intVal db dv)
        (.add (.directReg r) (.mul (.directReg x) (.intVal sb sv)))))).complete_ = true
    ∧ masm_unparseX86Expression rn (some (.memRef (.add (.add (.directReg r)
          (.mul (.directReg x) (.intVal sb sv))) (.intVal db dv)))) lea labels
      = masm_unparseX86Expression rn (some (.memRef (.add (.add (.directReg r)
          (.intVal db dv)) (.mul (.directReg x) (.intVal sb sv))))) lea labels
    ∧ masm_unparseX86Expression rn (some (.memRef (.add (.add (.directReg r)
          (.intVal db dv)) (.mul (.directReg x) (.intVal sb sv))))) lea labels
      = masm_unparseX86Expression rn (some (.memRef (.add (.directReg r)
          (.add (.mul (.directReg x) (.intVal sb sv)) (.intVal db dv))))) lea labels
    ∧ masm_unparseX86Expression rn (some (.memRef (.add (.directReg r)
          (.add (.mul (.directReg x) (.intVal sb sv)) (.intVal db dv))))) lea labels
      = masm_unparseX86Expression rn (some (.memRef (.add (.intVal db dv)
          (.add (.directReg r) (.mul (.directReg x) (.intVal sb sv)))))) lea labels :=
  ⟨rfl, rfl, rfl, rfl, rfl, rfl, rfl⟩

/-- Witness for addressing_grouping_invariance at eax-style registers, scale
4 and displacement -8. -/
theorem addressing_grouping_invariance_witness :
    (4 : Nat) ≠ 0 ∧
    masm_unparseX86Expression (fun n => "r" ++ toString n)
      (some (.memRef (.add (.add (.directReg 0) (.mul (.directReg 1) (.intVal 8 4)))
        (.intVal 32 0xfffffff8)))) false none
    = masm_unparseX86Expression (fun n => "r" ++ toString n)
      (some (.memRef (.add (.add (.directReg 0) (.intVal 32 0xfffffff8))
        (.mul (.directReg 1) (.intVal 8 4))))) false none :=
  ⟨by decide, (addressing_grouping_invariance (fun n => "r" ++ toString n) false none
      0 1 8 4 32 0xfffffff8 (by decide)).2.2.2.2.1⟩

/-- C3: for every matched addressing pattern the emitted text is the open
bracket, the base name, a plus, the index name, then a star and the scale
only when the scale differs from 1, then a sign character chosen by the sign
bit of the displacement at its own declared width followed by 0x and the
absolute value of the displacement in hexadecimal, then the closing
bracket. -/
theorem matched_pattern_emit_format (rn : Nat → String) (fp ixr sb sv ob ov : Nat)
    (hw : ob = 8 ∨ ob = 16 ∨ ob = 32 ∨ ob = 64) (hv : ov < 2 ^ ob) :
    X86IndirectAddress.emit rn ⟨some fp, some (ob, ov), some ixr, some (sb, sv), true⟩
      = some (specAddressText rn fp ixr sv ob ov) := by
  have hob : 0 < ob := by rcases hw with rfl | rfl | rfl | rfl <;> norm_num
  have h64 : ob ≤ 64 := by rcases hw with rfl | rfl | rfl | rfl <;> norm_num
  have htb := testBit_msb ob ov hob hv
  simp only [X86IndirectAddress.emit, specAddressText]
  rw [htb, scale_ite_comm]
  by_cases hneg : 2 ^ (ob - 1) ≤ ov
  · simp only [decide_eq_true_eq, if_pos hneg]
    rw [emit_mag_neg ob ov h64 hv hneg]
  · simp only [decide_eq_true_eq, if_neg hneg, sub_zero]
    rw [emit_mag_pos ob ov h64 hv]

/-- Witness for matched_pattern_emit_format: scale 4 and an 32-bit
displacement with the sign bit set render with a minus sign and the
magnitude. -/
theorem matched_pattern_emit_format_witness :
    X86IndirectAddress.emit (fun n => "r" ++ toString n)
        ⟨some 0, some (32, 0xfffffff8), some 1, some (8, 4), true⟩
      = some "[r0+r1*4-0x8]" := by
  rw [matched_pattern_emit_format (fun n => "r" ++ toString n) 0 1 8 4 32 0xfffffff8
      (Or.inr (Or.inr (Or.inl rfl))) (by norm_num)]
  rfl

/-- C4: for 8-bit and 16-bit literals the formatter prints a negative
magnitude exactly when the sign bit is set and the value with the sign bit
cleared is non-zero, and otherwise the unsigned form; in particular the
8-bit value 0x80 renders as 0x80 and 0x81 renders as -0x7f. -/
theorem narrow_literal_sign_rule (rn : Nat → String) (lea : Bool)
    (labels : Option (List (Nat × String))) (w v : Nat)
    (hw : w = 8 ∨ w = 16) (hv : v < 2 ^ w) :
    masm_unparseX86Expr rn (.intVal w v) lea labels = .ok (specIntNumeral w v) ∧
    masm_unparseX86Expr rn (.intVal 8 0x80) lea labels = .ok "0x80" ∧
    masm_unparseX86Expr rn (.intVal 8 0x81) lea labels = .ok "-0x7f" := by
  refine ⟨?_, rfl, rfl⟩
  rcases hw with rfl | rfl
  · exact intVal8_eq rn lea labels v hv
  · exact intVal16_eq rn lea labels v hv

/-- Witness for narrow_literal_sign_rule at the 16-bit value 0x8001. -/
theorem narrow_literal_sign_rule_witness :
    masm_unparseX86Expr (fun _ => "") (.intVal 16 0x8001) false none =
      .ok (specIntNumeral 16 0x8001) ∧
    specIntNumeral 16 0x8001 = "-0x7fff" :=
  ⟨(narrow_literal_sign_rule (fun _ => "") false none 16 0x8001 (Or.inr rfl)
      (by norm_num)).1,
   by decide⟩

/-- Definitional unfolding of the 32-bit literal branch. -/
theorem intVal32_unfold (rn : Nat → String) (lea : Bool)
    (labels : Option (List (Nat × String))) (v : Nat) :
    masm_unparseX86Expr rn (.intVal 32 v) lea labels =
      (if masm_x86ValToLabel v labels ≠ "" then .ok (masm_x86ValToLabel v labels)
       else if (v &&& 0x80000000) ≠ 0 ∧ (v &&& 0x7fffffff) ≠ 0 then
         .ok ("-" ++ prix64 (twoComp v &&& 0xffffffff))
       else .ok (prix64 v)) := rfl

/-- Definitional unfolding of the 64-bit literal branch. -/
theorem intVal64_unfold (rn : Nat → String) (lea : Bool)
    (labels : Option (List (Nat × String))) (v : Nat) :
    masm_unparseX86Expr rn (.intVal 64 v) lea labels =
      (if masm_x86ValToLabel v labels ≠ "" then .ok (masm_x86ValToLabel v labels)
       else if (v &&& (2 ^ 63)) ≠ 0 ∧ (v &&& (2 ^ 63 - 1)) ≠ 0 then
         .ok ("-" ++ prix64 (twoComp v))
       else .ok (prix64 v)) := rfl

/-- C5 fails as stated when a nonzero key is mapped to the empty name: the
rendering then is the numeral, not the mapped name. -/
theorem label_precedence_cex :
    List.lookup 5 [((5 : Nat), "")] = some "" ∧ (5 : Nat) ≠ 0 ∧
    masm_unparseX86Expr (fun _ => "") (.intVal 32 5) false (some [(5, "")]) = .ok "0x5" ∧
    ("0x5" : String) ≠ "" :=
  ⟨rfl, by decide, rfl, by decide⟩

/-- C5 (amended): a 32-bit or 64-bit literal whose value is a nonzero key
mapped to a non-empty name renders as that name exactly; the value 0 always
renders as the numeral form, even if 0 is a key; and an absent map pointer
renders like an empty map. -/
theorem label_precedence :
    (∀ (rn : Nat → String) (lea : Bool) (m : List (Nat × String)) (w v : Nat)
        (name : String), w = 32 ∨ w = 64 → v ≠ 0 → m.lookup v = some name →
        name ≠ "" →
        masm_unparseX86Expr rn (.intVal w v) lea (some m) = .ok name)
    ∧ (∀ (rn : Nat → String) (lea : Bool) (labels : Option (List (Nat × String)))
        (w : Nat), w = 32 ∨ w = 64 →
        masm_unparseX86Expr rn (.intVal w 0) lea labels = .ok "0")
    ∧ (∀ (rn : Nat → String) (lea : Bool) (w v : Nat), w = 32 ∨ w = 64 →
        masm_unparseX86Expr rn (.intVal w v) lea none =
          masm_unparseX86Expr rn (.intVal w v) lea (some [])) := by
  refine ⟨?_, ?_, ?_⟩
  · intro rn lea m w v name hw hvz hlook hname
    have hl : masm_x86ValToLabel v (some m) = name := by
      simp [masm_x86ValToLabel, hvz, hlook]
    rcases hw with rfl | rfl
    · rw [intVal32_unfold, hl, if_pos hname]
    · rw [intVal64_unfold, hl, if_pos hname]
  · intro rn lea labels w hw
    rcases hw with rfl | rfl <;> rfl
  · intro rn lea w v hw
    have hl : masm_x86ValToLabel v (some []) = masm_x86ValToLabel v none := by
      unfold masm_x86ValToLabel
      by_cases hz : v = 0
      · simp [hz]
      · simp [hz, List.lookup]
    rcases hw with rfl | rfl
    · rw [intVal32_unfold, intVal32_unfold, hl]
    · rw [intVal64_unfold, intVal64_unfold, hl]

/-- Witness for label_precedence: a mapped nonzero 32-bit value renders as
its label. -/
theorem label_precedence_witness :
    masm_unparseX86Expr (fun _ => "") (.intVal 32 0x401000) false
      (some [(0x401000, "_main")]) = .ok "_main" :=
  label_precedence.1 (fun _ => "") false [(0x401000, "_main")] 32 0x401000 "_main"
    (Or.inl rfl) (by decide) rfl (by decide)

/-- C6 fails as stated at the value zero: the zero literal renders as the
bare numeral 0 with no 0x tag. -/
theorem numeral_rendering_cex :
    masm_unparseX86Expr (fun _ => "") (.intVal 8 0) false none = .ok "0" ∧
    ("0" : String).startsWith "0x" = false ∧ ("0" : String) ≠ "0x0" :=
  ⟨rfl, by decide, by decide⟩

/-- C6 (amended): every literal of width 8, 16, 32 or 64 not replaced by a
label renders as lower-case hexadecimal: a minus, 0 and x before the digits
for negative forms, 0 and x before the digits for non-negative forms other
than zero, and the single digit 0 with no 0x tag for the value zero; the
digits carry no leading zero padding. -/
theorem numeral_rendering_format (rn : Nat → String) (lea : Bool)
    (labels : Option (List (Nat × String))) (w v : Nat)
    (hw : w = 8 ∨ w = 16 ∨ w = 32 ∨ w = 64) (hv : v < 2 ^ w)
    (hlab : masm_x86ValToLabel v labels = "") :
    ∃ digits : List Char,
      masm_unparseX86Expr rn (.intVal w v) lea labels =
        .ok (String.mk ((if 2 ^ (w - 1) ≤ v ∧ v % 2 ^ (w - 1) ≠ 0 then ['-', '0', 'x']
              else if v = 0 then ([] : List Char) else ['0', 'x']) ++ digits))
      ∧ digits ≠ [] ∧ digits.all isLowerHexDigit = true
      ∧ ((digits.head? = some '0') → digits = ['0']) := by
  have hbase : masm_unparseX86Expr rn (.intVal w v) lea labels =
      .ok (specIntNumeral w v) := by
    rcases hw with rfl | rfl | rfl | rfl
    · exact intVal8_eq rn lea labels v hv
    · exact intVal16_eq rn lea labels v hv
    · exact intVal32_eq rn lea labels v hv hlab
    · exact intVal64_eq rn lea labels v hv hlab
  rw [hbase]
  unfold specIntNumeral
  by_cases hneg : 2 ^ (w - 1) ≤ v ∧ v % 2 ^ (w - 1) ≠ 0
  · refine ⟨toHexList (2 ^ w - v), ?_, toHexList_ne_nil _, toHexList_all_lower _,
      toHexList_head_zero _⟩
    simp only [if_pos hneg]
    rw [dash_prix64_pos _ (by omega)]
    rfl
  · by_cases hz : v = 0
    · refine ⟨toHexList v, ?_, toHexList_ne_nil _, toHexList_all_lower _,
        toHexList_head_zero _⟩
      simp only [if_neg hneg, if_pos hz]
      subst hz
      rfl
    · refine ⟨toHexList v, ?_, toHexList_ne_nil _, toHexList_all_lower _,
        toHexList_head_zero _⟩
      simp only [if_neg hneg, if_neg hz]
      rw [prix64_pos v hz]
      rfl

/-- Witness for numeral_rendering_format at the 8-bit value 0x90. -/
theorem numeral_rendering_format_witness :
    ∃ digits : List Char,
      masm_unparseX86Expr (fun _ => "") (.intVal 8 0x90) false none =
        .ok (String.mk ((if 2 ^ (8 - 1) ≤ (0x90 : Nat) ∧ (0x90 : Nat) % 2 ^ (8 - 1) ≠ 0
              then ['-', '0', 'x']
              else if (0x90 : Nat) = 0 then ([] : List Char) else ['0', 'x']) ++ digits))
      ∧ digits ≠ [] ∧ digits.all isLowerHexDigit = true
      ∧ ((digits.head? = some '0') → digits = ['0']) :=
  numeral_rendering_format (fun _ => "") false none 8 0x90 (Or.inl rfl) (by norm_num) rfl

/-- Appending strings appends their character data. -/
theorem mk_append_mk (a b : List Char) :
    String.mk a ++ String.mk b = String.mk (a ++ b) := rfl

/-- The byte-dump accumulation loop appends exactly the hex characters of
the processed bytes. -/
theorem foldl_byteHex (l : List (Fin 256)) : ∀ acc : String,
    l.foldl (fun acc b => acc ++ byteHexUpper b.val) acc =
      acc ++ String.mk (hexBytesChars l) := by
  induction l with
  | nil =>
    intro acc
    cases acc with
    | mk d =>
      show String.mk d = String.mk d ++ String.mk []
      rw [mk_append_mk, List.append_nil]
  | cons b rest ih =>
    intro acc
    cases acc with
    | mk d =>
      have h1 : List.foldl (fun acc c => acc ++ byteHexUpper c.val)
          (String.mk d) (b :: rest) =
          List.foldl (fun acc c => acc ++ byteHexUpper c.val)
            (String.mk (d ++ [hexDigitCharUpper (b.val / 16),
              hexDigitCharUpper (b.val % 16)])) rest := rfl
      rw [h1, ih, mk_append_mk, mk_append_mk]
      show String.mk _ = String.mk _
      simp [hexBytesChars]

theorem hexBytesChars_length (l : List (Fin 256)) :
    (hexBytesChars l).length = 2 * l.length := by
  induction l with
  | nil => rfl
  | cons b rest ih =>
    simp only [hexBytesChars, List.length_cons, ih]
    omega

theorem hexBytesChars_upper (l : List (Fin 256)) :
    (hexBytesChars l).all isUpperHexDigit = true := by
  induction l with
  | nil => rfl
  | cons b rest ih =>
    have h1 : b.val / 16 < 16 := Nat.div_lt_of_lt_mul (by have := b.isLt; omega)
    have h2 : b.val % 16 < 16 := Nat.mod_lt _ (by norm_num)
    simp [hexBytesChars, ih, hexDigitCharUpper_isUpper _ h1,
      hexDigitCharUpper_isUpper _ h2]

/-- C7: the rendered byte dump consists of exactly min(N, M) * 2 hexadecimal
characters with no separators, followed by a trailing plus sign exactly when
the byte sequence was longer than the maximum, and never otherwise. -/
theorem opcode_bytes_dump_format (data : List (Fin 256)) (max_bytes : Nat) :
    ∃ hexChars : List Char,
      debug_opcode_bytes data max_bytes =
        String.mk (hexChars ++ (if data.length > max_bytes then ['+'] else []))
      ∧ hexChars.length = 2 * min data.length max_bytes
      ∧ hexChars.all isUpperHexDigit = true := by
  refine ⟨hexBytesChars (data.take max_bytes), ?_, ?_, hexBytesChars_upper _⟩
  · simp only [debug_opcode_bytes]
    rw [foldl_byteHex]
    by_cases h : data.length > max_bytes
    · simp only [if_pos h]
      rfl
    · simp only [if_neg h]
      rw [List.append_nil]
      rfl
  · rw [hexBytesChars_length, List.length_take]
    omega

/-- C8: an expression of an unrecognized variant makes the unparser signal
the unsupported-expression-kind condition, fatal for that render call, and
never yields placeholder text for the node. -/
theorem unsupported_kind_fatal (rn : Nat → String) (lea : Bool)
    (labels : Option (List (Nat × String))) (name : String) :
    masm_unparseX86Expression rn (some (.unknown name)) lea labels =
      .error (.unsupportedExpressionKind name) := rfl

/-- C9: a null expression argument renders as the sentinel text BOGUS:NULL
instead of failing, so rendering of the surrounding listing continues. -/
theorem null_expression_sentinel (rn : Nat → String) (lea : Bool)
    (labels : Option (List (Nat × String))) :
    masm_unparseX86Expression rn none lea labels = .ok "BOGUS:NULL" := rfl

/-- C10: an integer literal whose significant bit width is not 8, 16, 32 or
64 renders as the empty string for every label map, with no label lookup and
no error signalled. -/
theorem unusual_width_renders_empty (rn : Nat → String) (lea : Bool)
    (labels : Option (List (Nat × String))) (w v : Nat)
    (h8 : w ≠ 8) (h16 : w ≠ 16) (h32 : w ≠ 32) (h64 : w ≠ 64) :
    masm_unparseX86Expression rn (some (.intVal w v)) lea labels = .ok "" := by
  simp [masm_unparseX86Expression, masm_unparseX86Expr, h8, h16, h32, h64]

/-- Witness for unusual_width_renders_empty at width 12, with the value
itself present in the label map. -/
theorem unusual_width_renders_empty_witness :
    masm_unparseX86Expression (fun _ => "") (some (.intVal 12 77)) false
      (some [(77, "has_label")]) = .ok "" :=
  unusual_width_renders_empty (fun _ => "") false (some [(77, "has_label")]) 12 77
    (by decide) (by decide) (by decide) (by decide)
